import Mathlib

/-!
Verification of the `aksi_nn` scalar autograd arena.

The Rust source (src/value.rs, src/rng.rs, src/net.rs) is shallowly embedded
here.  Machine floats (`f64`) are modelled by an arbitrary `Field α`; the
transcendental primitives (`powf`, `exp`, `ln`) and the constant `E` used by
the source are abstracted into a record `FOps α` of uninterpreted operations,
so every theorem below holds for any interpretation of them.  The arena is a
list of nodes; Rust's panicking index operations are modelled with `List.getD`
(theorems carry in-range hypotheses matching Rust's non-panicking executions)
and the fallible accessors with `Option`.
-/

set_option autoImplicit false

namespace AksiNN

/-- The transcendental primitives of `f64` used by the source, plus the
constant `core::f64::consts::E`, abstracted as uninterpreted operations. -/
structure FOps (α : Type) where
  powf : α → α → α
  exp : α → α
  log : α → α
  e : α

/-- `OpType` from src/value.rs. -/
inductive OpType where
  | Add
  | Sub
  | Mul
  | Div
  | Tanh
  | Pow
  | Exp
deriving DecidableEq

/-- `Operation = (OpType, [CtxIdx; 2])` from src/value.rs. -/
abbrev Operation : Type := OpType × Nat × Nat

variable {α : Type} [Field α]

/-- `Value` from src/value.rs: cached forward value, gradient accumulator,
optional operation descriptor. -/
structure Value (α : Type) where
  data : α
  grad : α
  op : Option Operation
deriving DecidableEq

/-- `Value::new` from src/value.rs. -/
def Value.new (data : α) (op : Operation) : Value α :=
  { data := data, grad := 0, op := some op }

/-- `Value::new_const` from src/value.rs. -/
def Value.new_const (data : α) : Value α :=
  { data := data, grad := 0, op := none }

/-- The default node used to totalise Rust's panicking index operator. -/
def dfltV : Value α := Value.new_const 0

/-- `Context` from src/value.rs: the append-only arena. -/
structure Context (α : Type) where
  values : List (Value α)
deriving DecidableEq

/-- `Context::new` from src/value.rs. -/
def Context.new : Context α := { values := [] }

/-- `Context::push_val`: append a node, return its position. -/
def Context.push_val (c : Context α) (v : Value α) : Context α × Nat :=
  ({ values := c.values ++ [v] }, c.values.length)

/-- `Context::push`: append a leaf node. -/
def Context.push (c : Context α) (val : α) : Context α × Nat :=
  c.push_val (Value.new_const val)

/-- Total version of the node lookup `self.values[idx]`. -/
def Context.node (c : Context α) (idx : Nat) : Value α :=
  c.values.getD idx dfltV

/-- The stored forward value at a position (0 for out-of-range positions). -/
def Context.dataAt (c : Context α) (idx : Nat) : α :=
  (c.node idx).data

/-- The gradient accumulator at a position (0 for out-of-range positions). -/
def Context.gradAt (c : Context α) (idx : Nat) : α :=
  (c.node idx).grad

/-- The operation descriptor at a position (none for out-of-range positions). -/
def Context.opAt (c : Context α) (idx : Nat) : Option Operation :=
  (c.node idx).op

/-- `Context::value`, the fallible accessor: `self.values[idx].data` panics in
Rust when `idx` was never issued; the failure is modelled by `none`. -/
def Context.value (c : Context α) (idx : Nat) : Option α :=
  (c.values.get? idx).map Value.data

/-- `Context::grad`, the fallible accessor, modelled like `Context.value`. -/
def Context.grad (c : Context α) (idx : Nat) : Option α :=
  (c.values.get? idx).map Value.grad

/-- Overwrite the gradient stored at a position (no-op when out of range,
matching a panic-free Rust execution only at in-range positions). -/
def Context.setGrad (c : Context α) (idx : Nat) (g : α) : Context α :=
  { values := c.values.set idx { c.node idx with grad := g } }

/-- `self.values[idx].grad += x`. -/
def Context.addGrad (c : Context α) (idx : Nat) (x : α) : Context α :=
  c.setGrad idx (c.gradAt idx + x)

/-- `self.values[idx].grad -= x`. -/
def Context.subGrad (c : Context α) (idx : Nat) (x : α) : Context α :=
  c.setGrad idx (c.gradAt idx - x)

/-- `Context::clear_grad` from src/value.rs. -/
def Context.clear_grad (c : Context α) (idx : Nat) : Context α :=
  c.setGrad idx 0

/-- `Context::apply_op`: read both operand values, append a derived node. -/
def Context.apply_op (c : Context α) (idx1 idx2 : Nat) (t : OpType)
    (f : α → α → α) : Context α × Nat :=
  c.push_val (Value.new (f (c.dataAt idx1) (c.dataAt idx2)) (t, idx1, idx2))

/-- `Context::add` from src/value.rs. -/
def Context.add (c : Context α) (idx1 idx2 : Nat) : Context α × Nat :=
  c.apply_op idx1 idx2 OpType.Add (fun a b => a + b)

/-- `Context::sub` from src/value.rs. -/
def Context.sub (c : Context α) (idx1 idx2 : Nat) : Context α × Nat :=
  c.apply_op idx1 idx2 OpType.Sub (fun a b => a - b)

/-- `Context::mul` from src/value.rs. -/
def Context.mul (c : Context α) (idx1 idx2 : Nat) : Context α × Nat :=
  c.apply_op idx1 idx2 OpType.Mul (fun a b => a * b)

/-- `Context::div` from src/value.rs. -/
def Context.div (c : Context α) (idx1 idx2 : Nat) : Context α × Nat :=
  c.apply_op idx1 idx2 OpType.Div (fun a b => a / b)

/-- `Context::pow` from src/value.rs. -/
def Context.pow (F : FOps α) (c : Context α) (base_idx exponent_idx : Nat) :
    Context α × Nat :=
  c.apply_op base_idx exponent_idx OpType.Pow (fun a b => F.powf a b)

/-- `Context::exp` from src/value.rs: unary, second operand fixed to 0. -/
def Context.exp (F : FOps α) (c : Context α) (idx : Nat) : Context α × Nat :=
  c.apply_op idx 0 OpType.Exp (fun a _ => F.exp a)

/-- `Context::tanh` from src/value.rs: forward value computed through the
identity `(E.powf(2a) - 1) / (E.powf(2a) + 1)`. -/
def Context.tanh (F : FOps α) (c : Context α) (idx : Nat) : Context α × Nat :=
  c.apply_op idx 0 OpType.Tanh
    (fun a _ => (F.powf F.e (2 * a) - 1) / (F.powf F.e (2 * a) + 1))

/-- The left fold inside `Context::sum`. -/
def Context.sumGo (c : Context α) (acc : Nat) : List Nat → Context α × Nat
  | [] => (c, acc)
  | h :: hs =>
      let p := c.add acc h
      Context.sumGo p.1 p.2 hs

/-- `Context::sum` from src/value.rs: fold the handles with `add`, seeded by a
freshly pushed zero leaf. -/
def Context.sum (c : Context α) (hs : List Nat) : Context α × Nat :=
  let p := c.push 0
  Context.sumGo p.1 p.2 hs

/-- One iteration of the descending loop of `Context::backward`, at position
`idx`.  Grad updates happen in source order; the node's own grad is re-read
before each accumulation exactly as `self.values[idx].grad` is in Rust. -/
def Context.backStep (F : FOps α) (c : Context α) (idx : Nat) : Context α :=
  let val := c.node idx
  match val.op with
  | none => c
  | some (t, a, b) =>
    match t with
    | OpType.Add =>
        let c1 := c.addGrad a (c.gradAt idx)
        c1.addGrad b (c1.gradAt idx)
    | OpType.Sub =>
        let c1 := c.addGrad a (c.gradAt idx)
        c1.subGrad b (c1.gradAt idx)
    | OpType.Mul =>
        let av := c.dataAt a
        let bv := c.dataAt b
        let c1 := c.addGrad a (bv * c.gradAt idx)
        c1.addGrad b (av * c1.gradAt idx)
    | OpType.Div =>
        let av := c.dataAt a
        let bv := c.dataAt b
        let c1 := c.addGrad a ((1 / bv) * c.gradAt idx)
        c1.subGrad b ((av / (bv * bv)) * c1.gradAt idx)
    | OpType.Pow =>
        let av := c.dataAt a
        let bv := c.dataAt b
        let c1 := c.addGrad a (bv * F.powf av (bv - 1) * c.gradAt idx)
        c1.addGrad b (F.powf av bv * c1.gradAt idx * F.log av)
    | OpType.Tanh =>
        c.addGrad a ((1 - val.data ^ 2) * c.gradAt idx)
    | OpType.Exp =>
        let av := c.dataAt a
        c.addGrad a (F.exp av * c.gradAt idx)

/-- `backLoop F n c` runs the descending sweep over positions
`n-1, n-2, ..., 0`; `for idx in (0..=output_idx).rev()` is
`backLoop F (output_idx + 1)`. -/
def Context.backLoop (F : FOps α) : Nat → Context α → Context α
  | 0, c => c
  | n + 1, c => Context.backLoop F n (c.backStep F n)

/-- Reset every node's gradient to zero (the first line of `backward`). -/
def Context.resetGrads (c : Context α) : Context α :=
  { values := c.values.map (fun v => { v with grad := 0 }) }

/-- `Context::backward` from src/value.rs: reset all grads, seed the output
with 1, then sweep positions in strictly descending order. -/
def Context.backward (F : FOps α) (c : Context α) (output_idx : Nat) :
    Context α :=
  Context.backLoop F (output_idx + 1) ((c.resetGrads).setGrad output_idx 1)

/-- One xorshift state update of `Rng::rand` (src/rng.rs).  `usize` is 64-bit;
each left shift truncates modulo `2 ^ 64` as Rust's `<<` on `usize` does. -/
def rngStep (s : Nat) : Nat :=
  let s1 := s ^^^ (s <<< 13 % 2 ^ 64)
  let s2 := s1 ^^^ (s1 >>> 17)
  s2 ^^^ (s2 <<< 43 % 2 ^ 64)

/-- `Rng` from src/rng.rs: a single `usize` of state. -/
structure Rng where
  state : Nat

/-- `Rng::new` from src/rng.rs: 64 warm-up calls to `rand`, keeping only the
state updates. -/
def Rng.new (seed : Nat) : Rng :=
  { state := rngStep^[64] seed }

/-- `Rng::rand` from src/rng.rs: return the current state scaled into
`[0, 1]`, then advance the state. -/
def Rng.rand (r : Rng) : α × Rng :=
  ((r.state : α) / ((2 ^ 64 - 1 : Nat) : α), { state := rngStep r.state })

/-- `Rng::range` from src/rng.rs. -/
def Rng.range (r : Rng) (min max : α) : α × Rng :=
  let scale := max - min
  let p := r.rand (α := α)
  (p.1 * scale + min, p.2)

/-- `Neuron` from src/net.rs: weight handles plus a bias handle. -/
structure Neuron where
  weights : List Nat
  bias : Nat

/-- The `map`/`collect` of `Neuron::new`: push `n` leaves, each initialised by
`rng.range(-1.0, 1.0)`, threading the generator left to right. -/
def pushParams (c : Context α) (r : Rng) : Nat → Context α × Rng × List Nat
  | 0 => (c, r, [])
  | n + 1 =>
      let p := r.range (-1 : α) 1
      let q := c.push p.1
      let rest := pushParams q.1 p.2 n
      (rest.1, rest.2.1, q.2 :: rest.2.2)

/-- `Neuron::new` from src/net.rs: bias leaf first, then `n` weight leaves. -/
def Neuron.new (c : Context α) (r : Rng) (n : Nat) :
    Context α × Rng × Neuron :=
  let p := r.range (-1 : α) 1
  let q := c.push p.1
  let rest := pushParams q.1 p.2 n
  (rest.1, rest.2.1, { weights := rest.2.2, bias := q.2 })

/-- The loop of `Neuron::forward`: for each weight/input pair, multiply and
add into the running activation.  `zip` truncation is mirrored by the
double pattern match. -/
def forwardLoop (c : Context α) (act : Nat) :
    List Nat → List Nat → Context α × Nat
  | [], _ => (c, act)
  | _ :: _, [] => (c, act)
  | w :: ws, x :: xs =>
      let p := c.mul w x
      let q := p.1.add act p.2
      forwardLoop q.1 q.2 ws xs

/-- `Neuron::forward` from src/net.rs. -/
def Neuron.forward (F : FOps α) (n : Neuron) (c : Context α)
    (x : List Nat) : Context α × Nat :=
  let p := forwardLoop c n.bias n.weights x
  p.1.tanh F p.2

/-! ### Derived definitions: skeleton, invariant, specification forms,
reachable arenas and concrete instances -/

/-- The immutable part of a node: its cached value and its operation. -/
def skel (v : Value α) : α × Option Operation := (v.data, v.op)

/-- The grad-free part of an arena; `backward` never changes it. -/
def Context.skeleton (c : Context α) : List (α × Option Operation) :=
  c.values.map skel

/-- A node at position `i` is structurally acyclic when both operand handles
point strictly below `i`. -/
def opWFb (i : Nat) : Option Operation → Bool
  | none => true
  | some (_, a, b) => decide (a < i) && decide (b < i)

/-- The structural acyclicity invariant: every operand handle referenced by a
node refers to a node at a strictly lower position. -/
def Context.WellFormed (c : Context α) : Prop :=
  ∀ i, i < c.values.length → opWFb i (c.opAt i) = true

instance (c : Context α) : Decidable c.WellFormed :=
  Nat.decidableBallLT c.values.length _

/-- One step of the backward sweep, written exactly as the specification
states the local-derivative rules (`g/b` for Div's first operand, `a/b²`
for its second, `a^b·ln(a)·g` for Pow's second operand). -/
def Context.backStepSpec (F : FOps α) (c : Context α) (idx : Nat) :
    Context α :=
  let val := c.node idx
  match val.op with
  | none => c
  | some (t, a, b) =>
    match t with
    | OpType.Add =>
        let c1 := c.addGrad a (c.gradAt idx)
        c1.addGrad b (c1.gradAt idx)
    | OpType.Sub =>
        let c1 := c.addGrad a (c.gradAt idx)
        c1.subGrad b (c1.gradAt idx)
    | OpType.Mul =>
        let av := c.dataAt a
        let bv := c.dataAt b
        let c1 := c.addGrad a (bv * c.gradAt idx)
        c1.addGrad b (av * c1.gradAt idx)
    | OpType.Div =>
        let av := c.dataAt a
        let bv := c.dataAt b
        let c1 := c.addGrad a (c.gradAt idx / bv)
        c1.subGrad b ((av / bv ^ 2) * c1.gradAt idx)
    | OpType.Pow =>
        let av := c.dataAt a
        let bv := c.dataAt b
        let c1 := c.addGrad a (bv * F.powf av (bv - 1) * c.gradAt idx)
        c1.addGrad b (F.powf av bv * F.log av * c1.gradAt idx)
    | OpType.Tanh =>
        c.addGrad a ((1 - val.data ^ 2) * c.gradAt idx)
    | OpType.Exp =>
        let av := c.dataAt a
        c.addGrad a (F.exp av * c.gradAt idx)

/-- The descending sweep of `backStepSpec` over `n-1, ..., 0`. -/
def Context.backLoopSpec (F : FOps α) : Nat → Context α → Context α
  | 0, c => c
  | n + 1, c => Context.backLoopSpec F n (c.backStepSpec F n)

/-- `backward` as the specification words it: zero every grad, seed the
output with 1, then visit positions from the output down to 0. -/
def Context.backwardSpec (F : FOps α) (c : Context α) (output_idx : Nat) :
    Context α :=
  Context.backLoopSpec F (output_idx + 1) ((c.resetGrads).setGrad output_idx 1)

/-- Arenas reachable from `Context::new` through the public, `push_val`-free
API surface: `push`, the builders, `clear_grad` and `backward`.  Builder
constructors require their operand handles to exist, as a panic-free Rust
execution does. -/
inductive Reachable (F : FOps α) : Context α → Prop where
  | base : Reachable F Context.new
  | push : ∀ {c : Context α} (v : α), Reachable F c →
      Reachable F (c.push v).1
  | add : ∀ {c : Context α} (a b : Nat), Reachable F c →
      a < c.values.length → b < c.values.length → Reachable F (c.add a b).1
  | sub : ∀ {c : Context α} (a b : Nat), Reachable F c →
      a < c.values.length → b < c.values.length → Reachable F (c.sub a b).1
  | mul : ∀ {c : Context α} (a b : Nat), Reachable F c →
      a < c.values.length → b < c.values.length → Reachable F (c.mul a b).1
  | div : ∀ {c : Context α} (a b : Nat), Reachable F c →
      a < c.values.length → b < c.values.length → Reachable F (c.div a b).1
  | pow : ∀ {c : Context α} (a b : Nat), Reachable F c →
      a < c.values.length → b < c.values.length →
      Reachable F (Context.pow F c a b).1
  | exp : ∀ {c : Context α} (a : Nat), Reachable F c →
      a < c.values.length → Reachable F (Context.exp F c a).1
  | tanh : ∀ {c : Context α} (a : Nat), Reachable F c →
      a < c.values.length → Reachable F (Context.tanh F c a).1
  | sum : ∀ {c : Context α} (hs : List Nat), Reachable F c →
      (∀ h ∈ hs, h < c.values.length) → Reachable F (c.sum hs).1
  | clear_grad : ∀ {c : Context α} (i : Nat), Reachable F c →
      i < c.values.length → Reachable F (c.clear_grad i)
  | backward : ∀ {c : Context α} (h : Nat), Reachable F c →
      h < c.values.length → Reachable F (c.backward F h)

/-- The forward tanh value, through the exponential identity used by the
source. -/
def tanhVal (F : FOps α) (t : α) : α :=
  (F.powf F.e (2 * t) - 1) / (F.powf F.e (2 * t) + 1)

/-- A concrete interpretation of the transcendental primitives over `ℚ`,
used only to instantiate the universally quantified theorems below at
evaluable inputs. -/
def qOps : FOps ℚ := ⟨fun _ _ => 0, fun _ => 0, fun _ => 0, 0⟩

/-- Scenario A, step 1: `let a = ctx.push(2.0)`. -/
def pA : Context ℚ × Nat := Context.new.push 2

/-- Scenario A, step 2: `let b = ctx.push(3.0)`. -/
def pB : Context ℚ × Nat := pA.1.push 3

/-- Scenario A, step 3: `let c = ctx.mul(a, b)`. -/
def pC : Context ℚ × Nat := pB.1.mul pA.2 pB.2

/-- Scenario A, step 4: `ctx.backward(c)`. -/
def ctxA : Context ℚ := pC.1.backward qOps pC.2

/-! ### List helper lemmas -/

theorem getD_set_eq {β : Type} (l : List β) (i : Nat) (a d : β)
    (h : i < l.length) : (l.set i a).getD i d = a := by
  induction l generalizing i with
  | nil => simp at h
  | cons v t ih =>
      cases i with
      | zero => simp
      | succ n => simpa using ih n (by simpa using h)

theorem getD_set_ne {β : Type} (l : List β) (i j : Nat) (a d : β)
    (h : j ≠ i) : (l.set i a).getD j d = l.getD j d := by
  induction l generalizing i j with
  | nil => simp
  | cons v t ih =>
      cases i with
      | zero =>
          cases j with
          | zero => exact absurd rfl h
          | succ m => simp
      | succ n =>
          cases j with
          | zero => simp
          | succ m => simpa using ih n m (fun hh => h (by simp [hh]))

/-! ### Skeleton lemmas -/

theorem skel_dflt : skel (dfltV (α := α)) = ((0 : α), (none : Option Operation)) :=
  rfl

theorem skel_node (c : Context α) (j : Nat) :
    skel (c.node j) = c.skeleton.getD j ((0 : α), (none : Option Operation)) := by
  rw [Context.skeleton, Context.node, ← skel_dflt, List.getD_map]

theorem dataAt_eq_skel (c : Context α) (j : Nat) :
    c.dataAt j = (c.skeleton.getD j ((0 : α), (none : Option Operation))).1 := by
  rw [← skel_node]; rfl

theorem opAt_eq_skel (c : Context α) (j : Nat) :
    c.opAt j = (c.skeleton.getD j ((0 : α), (none : Option Operation))).2 := by
  rw [← skel_node]; rfl

theorem dataAt_eq_of_skel {c c' : Context α} (h : c.skeleton = c'.skeleton)
    (j : Nat) : c.dataAt j = c'.dataAt j := by
  rw [dataAt_eq_skel, dataAt_eq_skel, h]

theorem opAt_eq_of_skel {c c' : Context α} (h : c.skeleton = c'.skeleton)
    (j : Nat) : c.opAt j = c'.opAt j := by
  rw [opAt_eq_skel, opAt_eq_skel, h]

theorem length_eq_of_skel {c c' : Context α} (h : c.skeleton = c'.skeleton) :
    c.values.length = c'.values.length := by
  have := congrArg List.length h
  simpa [Context.skeleton] using this

theorem map_set_grad (l : List (Value α)) (i : Nat) (g : α) (d : Value α) :
    (l.set i { l.getD i d with grad := g }).map skel = l.map skel := by
  induction l generalizing i with
  | nil => simp
  | cons v t ih =>
      cases i with
      | zero => simp [skel]
      | succ n => simpa [skel] using ih n

theorem skeleton_setGrad (c : Context α) (i : Nat) (g : α) :
    (c.setGrad i g).skeleton = c.skeleton :=
  map_set_grad c.values i g dfltV

theorem skeleton_addGrad (c : Context α) (i : Nat) (x : α) :
    (c.addGrad i x).skeleton = c.skeleton :=
  skeleton_setGrad c i _

theorem skeleton_subGrad (c : Context α) (i : Nat) (x : α) :
    (c.subGrad i x).skeleton = c.skeleton :=
  skeleton_setGrad c i _

theorem skeleton_resetGrads (c : Context α) :
    (c.resetGrads).skeleton = c.skeleton := by
  simp [Context.skeleton, Context.resetGrads, skel]

theorem skeleton_backStep (F : FOps α) (c : Context α) (idx : Nat) :
    (c.backStep F idx).skeleton = c.skeleton := by
  unfold Context.backStep
  cases hop : (c.node idx).op with
  | none => simp [hop]
  | some o =>
      obtain ⟨t, a, b⟩ := o
      cases t <;> simp [hop, skeleton_addGrad, skeleton_subGrad]

theorem skeleton_backLoop (F : FOps α) (n : Nat) (c : Context α) :
    (Context.backLoop F n c).skeleton = c.skeleton := by
  induction n generalizing c with
  | zero => rfl
  | succ m ih => rw [Context.backLoop, ih, skeleton_backStep]

theorem skeleton_backward (F : FOps α) (c : Context α) (h : Nat) :
    (c.backward F h).skeleton = c.skeleton := by
  rw [Context.backward, skeleton_backLoop, skeleton_setGrad,
    skeleton_resetGrads]

/-! ### Grad accessor lemmas -/

theorem length_setGrad (c : Context α) (i : Nat) (g : α) :
    (c.setGrad i g).values.length = c.values.length := by
  simp [Context.setGrad]

theorem gradAt_setGrad_self (c : Context α) (i : Nat) (g : α)
    (h : i < c.values.length) : (c.setGrad i g).gradAt i = g := by
  show ((c.values.set i { c.node i with grad := g }).getD i dfltV).grad = g
  rw [getD_set_eq _ _ _ _ h]

theorem gradAt_setGrad_ne (c : Context α) (i j : Nat) (g : α)
    (h : j ≠ i) : (c.setGrad i g).gradAt j = c.gradAt j := by
  show ((c.values.set i { c.node i with grad := g }).getD j dfltV).grad
    = (c.values.getD j dfltV).grad
  rw [getD_set_ne _ _ _ _ _ h]

theorem gradAt_addGrad_ne (c : Context α) (i j : Nat) (x : α)
    (h : j ≠ i) : (c.addGrad i x).gradAt j = c.gradAt j :=
  gradAt_setGrad_ne c i j _ h

theorem gradAt_subGrad_ne (c : Context α) (i j : Nat) (x : α)
    (h : j ≠ i) : (c.subGrad i x).gradAt j = c.gradAt j :=
  gradAt_setGrad_ne c i j _ h

theorem gradAt_resetGrads (c : Context α) (j : Nat) :
    (c.resetGrads).gradAt j = 0 := by
  show ((c.values.map (fun v => { v with grad := 0 })).getD j dfltV).grad = 0
  rw [show (dfltV (α := α))
      = (fun v => { v with grad := (0 : α) }) dfltV from rfl,
    List.getD_map]

/-! ### Append preservation lemmas -/

theorem push_val_values (c : Context α) (v : Value α) :
    (c.push_val v).1.values = c.values ++ [v] := rfl

theorem push_val_ret (c : Context α) (v : Value α) :
    (c.push_val v).2 = c.values.length := rfl

theorem node_push_val_lt (c : Context α) (v : Value α) (j : Nat)
    (h : j < c.values.length) : (c.push_val v).1.node j = c.node j := by
  show (c.values ++ [v]).getD j dfltV = c.values.getD j dfltV
  exact List.getD_append _ _ _ _ h

theorem node_push_val_self (c : Context α) (v : Value α) :
    (c.push_val v).1.node c.values.length = v := by
  show (c.values ++ [v]).getD c.values.length dfltV = v
  rw [List.getD_append_right _ _ _ _ (Nat.le_refl _), Nat.sub_self]
  rfl

theorem length_push_val (c : Context α) (v : Value α) :
    (c.push_val v).1.values.length = c.values.length + 1 := by
  simp [push_val_values]

theorem length_push (c : Context α) (v : α) :
    (c.push v).1.values.length = c.values.length + 1 :=
  length_push_val c _

theorem push_ret (c : Context α) (v : α) :
    (c.push v).2 = c.values.length := rfl

theorem apply_op_eq_push_val (c : Context α) (a b : Nat) (t : OpType)
    (f : α → α → α) :
    c.apply_op a b t f
      = c.push_val (Value.new (f (c.dataAt a) (c.dataAt b)) (t, a, b)) := rfl

theorem apply_op_ret (c : Context α) (a b : Nat) (t : OpType)
    (f : α → α → α) : (c.apply_op a b t f).2 = c.values.length := rfl

theorem length_apply_op (c : Context α) (a b : Nat) (t : OpType)
    (f : α → α → α) :
    (c.apply_op a b t f).1.values.length = c.values.length + 1 :=
  length_push_val c _

theorem dataAt_apply_op_lt (c : Context α) (a b : Nat) (t : OpType)
    (f : α → α → α) (j : Nat) (h : j < c.values.length) :
    (c.apply_op a b t f).1.dataAt j = c.dataAt j := by
  show ((c.apply_op a b t f).1.node j).data = (c.node j).data
  rw [apply_op_eq_push_val, node_push_val_lt c _ j h]

theorem dataAt_apply_op_self (c : Context α) (a b : Nat) (t : OpType)
    (f : α → α → α) :
    (c.apply_op a b t f).1.dataAt c.values.length
      = f (c.dataAt a) (c.dataAt b) := by
  show ((c.apply_op a b t f).1.node c.values.length).data = _
  rw [apply_op_eq_push_val, node_push_val_self]
  rfl

theorem opAt_apply_op_lt (c : Context α) (a b : Nat) (t : OpType)
    (f : α → α → α) (j : Nat) (h : j < c.values.length) :
    (c.apply_op a b t f).1.opAt j = c.opAt j := by
  show ((c.apply_op a b t f).1.node j).op = (c.node j).op
  rw [apply_op_eq_push_val, node_push_val_lt c _ j h]

theorem opAt_apply_op_self (c : Context α) (a b : Nat) (t : OpType)
    (f : α → α → α) :
    (c.apply_op a b t f).1.opAt c.values.length = some (t, a, b) := by
  show ((c.apply_op a b t f).1.node c.values.length).op = _
  rw [apply_op_eq_push_val, node_push_val_self]
  rfl

theorem dataAt_push_lt (c : Context α) (v : α) (j : Nat)
    (h : j < c.values.length) : (c.push v).1.dataAt j = c.dataAt j := by
  show ((c.push v).1.node j).data = (c.node j).data
  rw [Context.push, node_push_val_lt c _ j h]

theorem dataAt_push_self (c : Context α) (v : α) :
    (c.push v).1.dataAt c.values.length = v := by
  show ((c.push v).1.node c.values.length).data = v
  rw [Context.push, node_push_val_self]
  rfl

theorem opAt_push_self (c : Context α) (v : α) :
    (c.push v).1.opAt c.values.length = none := by
  show ((c.push v).1.node c.values.length).op = none
  rw [Context.push, node_push_val_self]
  rfl

theorem length_add (c : Context α) (a b : Nat) :
    (c.add a b).1.values.length = c.values.length + 1 :=
  length_apply_op c a b OpType.Add _

theorem add_ret (c : Context α) (a b : Nat) :
    (c.add a b).2 = c.values.length := rfl

theorem node_add_lt (c : Context α) (a b j : Nat) (h : j < c.values.length) :
    (c.add a b).1.node j = c.node j :=
  node_push_val_lt c _ j h

theorem dataAt_add_lt (c : Context α) (a b j : Nat)
    (h : j < c.values.length) : (c.add a b).1.dataAt j = c.dataAt j :=
  dataAt_apply_op_lt c a b OpType.Add _ j h

theorem dataAt_add_self (c : Context α) (a b : Nat) :
    (c.add a b).1.dataAt c.values.length = c.dataAt a + c.dataAt b :=
  dataAt_apply_op_self c a b OpType.Add _

theorem opAt_add_self (c : Context α) (a b : Nat) :
    (c.add a b).1.opAt c.values.length = some (OpType.Add, a, b) :=
  opAt_apply_op_self c a b OpType.Add _

theorem length_mul (c : Context α) (a b : Nat) :
    (c.mul a b).1.values.length = c.values.length + 1 :=
  length_apply_op c a b OpType.Mul _

theorem mul_ret (c : Context α) (a b : Nat) :
    (c.mul a b).2 = c.values.length := rfl

theorem dataAt_mul_lt (c : Context α) (a b j : Nat)
    (h : j < c.values.length) : (c.mul a b).1.dataAt j = c.dataAt j :=
  dataAt_apply_op_lt c a b OpType.Mul _ j h

theorem dataAt_mul_self (c : Context α) (a b : Nat) :
    (c.mul a b).1.dataAt c.values.length = c.dataAt a * c.dataAt b :=
  dataAt_apply_op_self c a b OpType.Mul _

/-! ### Structural well-formedness lemmas -/

theorem opAt_none_of_ge (c : Context α) (idx : Nat)
    (h : c.values.length ≤ idx) : c.opAt idx = none := by
  show (c.values.getD idx dfltV).op = none
  rw [List.getD_eq_default _ _ h]
  rfl

theorem lt_of_opAt_some (c : Context α) (idx : Nat) (o : Operation)
    (h : c.opAt idx = some o) : idx < c.values.length := by
  by_contra hge
  rw [opAt_none_of_ge c idx (Nat.le_of_not_lt hge)] at h
  exact Option.noConfusion h

theorem operands_lt_of_WF {c : Context α} (hwf : c.WellFormed)
    {idx : Nat} {t : OpType} {a b : Nat}
    (h : c.opAt idx = some (t, a, b)) : a < idx ∧ b < idx := by
  have hlt := lt_of_opAt_some c idx _ h
  have := hwf idx hlt
  rw [h] at this
  simpa [opWFb] using this

theorem WF_of_skel_eq {c c' : Context α} (h : c.skeleton = c'.skeleton)
    (hwf : c.WellFormed) : c'.WellFormed := by
  intro i hi
  rw [← opAt_eq_of_skel h]
  exact hwf i ((length_eq_of_skel h) ▸ hi)

theorem WF_new : (Context.new (α := α)).WellFormed := by
  intro i hi
  simp [Context.new] at hi

theorem WF_push_val {c : Context α} (hwf : c.WellFormed) (v : Value α)
    (hv : opWFb c.values.length v.op = true) :
    (c.push_val v).1.WellFormed := by
  intro i hi
  rw [length_push_val] at hi
  rcases Nat.lt_or_ge i c.values.length with hlt | hge
  · have : (c.push_val v).1.opAt i = c.opAt i := by
      show ((c.push_val v).1.node i).op = (c.node i).op
      rw [node_push_val_lt c v i hlt]
    rw [this]
    exact hwf i hlt
  · have : i = c.values.length := Nat.le_antisymm (Nat.lt_succ_iff.mp hi) hge
    subst this
    have : (c.push_val v).1.opAt c.values.length = v.op := by
      show ((c.push_val v).1.node c.values.length).op = v.op
      rw [node_push_val_self]
    rw [this]
    exact hv

theorem WF_push {c : Context α} (hwf : c.WellFormed) (v : α) :
    (c.push v).1.WellFormed :=
  WF_push_val hwf _ rfl

theorem WF_apply_op {c : Context α} (hwf : c.WellFormed) {a b : Nat}
    (ha : a < c.values.length) (hb : b < c.values.length) (t : OpType)
    (f : α → α → α) : (c.apply_op a b t f).1.WellFormed :=
  WF_push_val hwf _ (by simp [opWFb, Value.new, ha, hb])

/-! ### Backward: the descending sweep never touches positions above the
output handle -/

theorem backStep_gradAt_ge (F : FOps α) (c : Context α) (idx j : Nat)
    (hwf : c.WellFormed) (hij : idx ≤ j) :
    (c.backStep F idx).gradAt j = c.gradAt j := by
  unfold Context.backStep
  cases hop : (c.node idx).op with
  | none => simp [hop]
  | some o =>
      obtain ⟨t, a, b⟩ := o
      have hops : c.opAt idx = some (t, a, b) := hop
      obtain ⟨hai, hbi⟩ := operands_lt_of_WF hwf hops
      have hja : j ≠ a := Nat.ne_of_gt (Nat.lt_of_lt_of_le hai hij)
      have hjb : j ≠ b := Nat.ne_of_gt (Nat.lt_of_lt_of_le hbi hij)
      cases t <;>
        simp [hop, gradAt_addGrad_ne, gradAt_subGrad_ne, hja, hjb]

theorem backLoop_gradAt_high (F : FOps α) (h : Nat) :
    ∀ (n : Nat) (c : Context α), c.WellFormed → n ≤ h + 1 →
      (∀ j, h < j → c.gradAt j = 0) →
      ∀ j, h < j → (Context.backLoop F n c).gradAt j = 0 := by
  intro n
  induction n with
  | zero => intro c _ _ hz j hj; exact hz j hj
  | succ m ih =>
      intro c hwf hle hz j hj
      rw [Context.backLoop]
      refine ih (c.backStep F m)
        (WF_of_skel_eq (skeleton_backStep F c m).symm hwf)
        (Nat.le_of_succ_le hle) ?_ j hj
      intro k hk
      rw [backStep_gradAt_ge F c m k hwf
        (Nat.le_of_lt (Nat.lt_of_le_of_lt (Nat.le_of_succ_le_succ hle) hk))]
      exact hz k hk

theorem backward_gradAt_high (F : FOps α) (c : Context α) (h : Nat)
    (hwf : c.WellFormed) : ∀ j, h < j → (c.backward F h).gradAt j = 0 := by
  intro j hj
  rw [Context.backward]
  refine backLoop_gradAt_high F h (h + 1) _ ?_ (Nat.le_refl _) ?_ j hj
  · exact WF_of_skel_eq
      ((skeleton_resetGrads c).symm.trans (skeleton_setGrad _ h 1).symm) hwf
  · intro k hk
    rw [gradAt_setGrad_ne _ h k 1 (Nat.ne_of_gt hk), gradAt_resetGrads]

/-! ### Backward refines the specified per-operation derivative rules -/

theorem backStep_eq_backStepSpec (F : FOps α) (c : Context α) (idx : Nat) :
    c.backStep F idx = c.backStepSpec F idx := by
  unfold Context.backStep Context.backStepSpec
  cases hop : (c.node idx).op with
  | none => simp [hop]
  | some o =>
      obtain ⟨t, a, b⟩ := o
      cases t <;>
        simp [hop, div_eq_mul_inv, pow_two, mul_comm, mul_assoc, mul_left_comm]

theorem backLoop_eq_backLoopSpec (F : FOps α) (n : Nat) (c : Context α) :
    Context.backLoop F n c = Context.backLoopSpec F n c := by
  induction n generalizing c with
  | zero => rfl
  | succ m ih =>
      rw [Context.backLoop, Context.backLoopSpec, backStep_eq_backStepSpec, ih]

theorem backward_eq_backwardSpec (F : FOps α) (c : Context α) (h : Nat) :
    c.backward F h = c.backwardSpec F h :=
  backLoop_eq_backLoopSpec F (h + 1) _

/-! ### Idempotency machinery: `resetGrads` only depends on the skeleton -/

theorem resetGrads_eq_skel_map (c : Context α) :
    c.resetGrads
      = { values := c.skeleton.map
            (fun p => { data := p.1, grad := 0, op := p.2 }) } := by
  unfold Context.resetGrads Context.skeleton
  rw [List.map_map]
  rfl

theorem resetGrads_eq_of_skel {c c' : Context α}
    (h : c.skeleton = c'.skeleton) : c.resetGrads = c'.resetGrads := by
  rw [resetGrads_eq_skel_map, resetGrads_eq_skel_map, h]

theorem backward_backward (F : FOps α) (c : Context α) (h : Nat) :
    (c.backward F h).backward F h = c.backward F h := by
  show Context.backLoop F (h + 1)
      (((c.backward F h).resetGrads).setGrad h 1) = c.backward F h
  rw [resetGrads_eq_of_skel (skeleton_backward F c h)]
  rfl

/-! ### Sum machinery -/

theorem sumGo_length : ∀ (hs : List Nat) (c : Context α) (acc : Nat),
    (c.sumGo acc hs).1.values.length = c.values.length + hs.length := by
  intro hs
  induction hs with
  | nil => intro c acc; simp [Context.sumGo]
  | cons h t ih =>
      intro c acc
      rw [Context.sumGo, ih, length_add]
      simp
      omega

theorem sumGo_node_lt : ∀ (hs : List Nat) (c : Context α) (acc j : Nat),
    j < c.values.length → (c.sumGo acc hs).1.node j = c.node j := by
  intro hs
  induction hs with
  | nil => intro c acc j _; rfl
  | cons h t ih =>
      intro c acc j hj
      rw [Context.sumGo]
      have hj1 : j < (c.add acc h).1.values.length := by
        rw [length_add]; omega
      rw [ih _ _ j hj1]
      exact node_add_lt c acc h j hj

theorem sumGo_ret : ∀ (hs : List Nat) (c : Context α) (acc : Nat),
    (c.sumGo acc hs).2
      = if hs = [] then acc else c.values.length + hs.length - 1 := by
  intro hs
  induction hs with
  | nil => intro c acc; rfl
  | cons h t ih =>
      intro c acc
      rw [Context.sumGo, ih]
      by_cases ht : t = [] <;> simp [ht, add_ret, length_add]

theorem sumGo_ret_lt : ∀ (hs : List Nat) (c : Context α) (acc : Nat),
    acc < c.values.length →
    (c.sumGo acc hs).2 < (c.sumGo acc hs).1.values.length := by
  intro hs c acc hacc
  rw [sumGo_ret, sumGo_length]
  by_cases h : hs = []
  · rw [if_pos h]; omega
  · rw [if_neg h]
    have : hs.length ≠ 0 := by
      intro hz; exact h (List.eq_nil_of_length_eq_zero hz)
    omega

theorem sumGo_dataAt : ∀ (hs : List Nat) (c : Context α) (acc : Nat),
    acc < c.values.length → (∀ h ∈ hs, h < c.values.length) →
    (c.sumGo acc hs).1.dataAt (c.sumGo acc hs).2
      = c.dataAt acc + (hs.map c.dataAt).sum := by
  intro hs
  induction hs with
  | nil => intro c acc _ _; simp [Context.sumGo]
  | cons h t ih =>
      intro c acc hacc hmem
      rw [Context.sumGo]
      have hih := ih (c.add acc h).1 (c.add acc h).2
        (by rw [length_add, add_ret]; omega)
        (fun x hx => by
          rw [length_add]
          exact Nat.lt_succ_of_lt (hmem x (by simp [hx])))
      rw [hih, add_ret, dataAt_add_self]
      have hmap : t.map (c.add acc h).1.dataAt = t.map c.dataAt := by
        refine List.map_congr_left ?_
        intro x hx
        exact dataAt_add_lt c acc h x (hmem x (by simp [hx]))
      rw [hmap, List.map_cons, List.sum_cons]
      ring

theorem sumGo_opAt_add : ∀ (hs : List Nat) (c : Context α) (acc i : Nat),
    i < hs.length →
    ∃ a b, (c.sumGo acc hs).1.opAt (c.values.length + i)
      = some (OpType.Add, a, b) := by
  intro hs
  induction hs with
  | nil => intro c acc i hi; simp at hi
  | cons h t ih =>
      intro c acc i hi
      rw [Context.sumGo]
      cases i with
      | zero =>
          refine ⟨acc, h, ?_⟩
          have hj1 : c.values.length < (c.add acc h).1.values.length := by
            rw [length_add]; omega
          show ((Context.sumGo _ _ t).1.node (c.values.length + 0)).op = _
          rw [Nat.add_zero, sumGo_node_lt t _ _ _ hj1]
          exact opAt_add_self c acc h
      | succ n =>
          have hn : n < t.length := by simpa using hi
          obtain ⟨a, b, hab⟩ := ih (c.add acc h).1 (c.add acc h).2 n hn
          refine ⟨a, b, ?_⟩
          rw [length_add] at hab
          have heq : c.values.length + (n + 1) = c.values.length + 1 + n := by
            omega
          rw [heq]
          exact hab

/-! ### Reachable arenas and the structural acyclicity invariant -/

theorem WF_sumGo : ∀ (hs : List Nat) (c : Context α) (acc : Nat),
    c.WellFormed → acc < c.values.length →
    (∀ h ∈ hs, h < c.values.length) → (c.sumGo acc hs).1.WellFormed := by
  intro hs
  induction hs with
  | nil => intro c acc hwf _ _; exact hwf
  | cons h t ih =>
      intro c acc hwf hacc hmem
      rw [Context.sumGo]
      refine ih (c.add acc h).1 (c.add acc h).2
        (WF_apply_op hwf hacc (hmem h (by simp)) OpType.Add _) ?_ ?_
      · rw [length_add, add_ret]; omega
      · intro x hx
        rw [length_add]
        exact Nat.lt_succ_of_lt (hmem x (by simp [hx]))

theorem WF_sum {c : Context α} (hwf : c.WellFormed) (hs : List Nat)
    (hmem : ∀ h ∈ hs, h < c.values.length) : (c.sum hs).1.WellFormed := by
  rw [Context.sum]
  refine WF_sumGo hs (c.push 0).1 (c.push 0).2 (WF_push hwf 0) ?_ ?_
  · show c.values.length < (c.push 0).1.values.length
    rw [length_push]
    omega
  · intro x hx
    rw [length_push]
    exact Nat.lt_succ_of_lt (hmem x hx)

theorem WF_clear_grad {c : Context α} (hwf : c.WellFormed) (i : Nat) :
    (c.clear_grad i).WellFormed :=
  WF_of_skel_eq (skeleton_setGrad c i 0).symm hwf

theorem WF_backward {c : Context α} (hwf : c.WellFormed) (F : FOps α)
    (h : Nat) : (c.backward F h).WellFormed :=
  WF_of_skel_eq (skeleton_backward F c h).symm hwf

theorem WF_of_Reachable {F : FOps α} {c : Context α}
    (hr : Reachable F c) : c.WellFormed := by
  induction hr with
  | base => exact WF_new
  | push v _ ih => exact WF_push ih v
  | add a b _ ha hb ih => exact WF_apply_op ih ha hb _ _
  | sub a b _ ha hb ih => exact WF_apply_op ih ha hb _ _
  | mul a b _ ha hb ih => exact WF_apply_op ih ha hb _ _
  | div a b _ ha hb ih => exact WF_apply_op ih ha hb _ _
  | pow a b _ ha hb ih => exact WF_apply_op ih ha hb _ _
  | exp a _ ha ih =>
      exact WF_apply_op ih ha (Nat.lt_of_le_of_lt (Nat.zero_le a) ha) _ _
  | tanh a _ ha ih =>
      exact WF_apply_op ih ha (Nat.lt_of_le_of_lt (Nat.zero_le a) ha) _ _
  | sum hs _ hmem ih => exact WF_sum ih hs hmem
  | clear_grad i _ _ ih => exact WF_clear_grad ih i
  | backward h _ _ ih => exact WF_backward ih F h

/-! ### Neuron forward machinery -/

theorem tanh_ret (F : FOps α) (c : Context α) (a : Nat) :
    (Context.tanh F c a).2 = c.values.length := rfl

theorem dataAt_tanh_self (F : FOps α) (c : Context α) (a : Nat) :
    (Context.tanh F c a).1.dataAt c.values.length = tanhVal F (c.dataAt a) :=
  dataAt_apply_op_self c a 0 OpType.Tanh _

theorem zipWith_mul_congr (d d' : Nat → α) :
    ∀ (ws xs : List Nat), (∀ w ∈ ws, d w = d' w) → (∀ x ∈ xs, d x = d' x) →
    List.zipWith (fun w x => d w * d x) ws xs
      = List.zipWith (fun w x => d' w * d' x) ws xs := by
  intro ws
  induction ws with
  | nil => intro xs _ _; simp
  | cons w ws ih =>
      intro xs hw hx
      cases xs with
      | nil => simp
      | cons x xs =>
          rw [List.zipWith_cons_cons, List.zipWith_cons_cons]
          rw [hw w (by simp), hx x (by simp),
            ih xs (fun u hu => hw u (by simp [hu]))
              (fun u hu => hx u (by simp [hu]))]

theorem forwardLoop_spec : ∀ (ws xs : List Nat) (c : Context α) (act : Nat),
    ws.length = xs.length → act < c.values.length →
    (∀ w ∈ ws, w < c.values.length) → (∀ x ∈ xs, x < c.values.length) →
    (forwardLoop c act ws xs).2 < (forwardLoop c act ws xs).1.values.length ∧
    (forwardLoop c act ws xs).1.dataAt (forwardLoop c act ws xs).2
      = c.dataAt act
        + (List.zipWith (fun w x => c.dataAt w * c.dataAt x) ws xs).sum := by
  intro ws
  induction ws with
  | nil =>
      intro xs c act _ hact _ _
      cases xs <;> simpa [forwardLoop] using hact
  | cons w ws ih =>
      intro xs c act hlen hact hw hx
      cases xs with
      | nil => exact absurd hlen (by simp)
      | cons x xs =>
          rw [forwardLoop]
          have hwc : w < c.values.length := hw w (by simp)
          have hxc : x < c.values.length := hx x (by simp)
          have hq1 : ((c.mul w x).1.add act (c.mul w x).2).1.values.length
              = c.values.length + 2 := by
            rw [length_add, length_mul]
          have hq2 : ((c.mul w x).1.add act (c.mul w x).2).2
              = c.values.length + 1 := by
            rw [add_ret, length_mul]
          have hih := ih xs ((c.mul w x).1.add act (c.mul w x).2).1
            ((c.mul w x).1.add act (c.mul w x).2).2
            (by simpa using hlen)
            (by rw [hq1, hq2]; omega)
            (fun u hu => by
              rw [hq1]
              exact Nat.lt_of_lt_of_le (hw u (by simp [hu])) (by omega))
            (fun u hu => by
              rw [hq1]
              exact Nat.lt_of_lt_of_le (hx u (by simp [hu])) (by omega))
          refine ⟨hih.1, ?_⟩
          rw [hih.2]
          have hdact : ((c.mul w x).1.add act (c.mul w x).2).1.dataAt
              ((c.mul w x).1.add act (c.mul w x).2).2
              = c.dataAt act + c.dataAt w * c.dataAt x := by
            rw [hq2]
            have : c.values.length + 1 = (c.mul w x).1.values.length := by
              rw [length_mul]
            rw [this]
            rw [dataAt_add_self]
            rw [dataAt_mul_lt c w x act hact, mul_ret, dataAt_mul_self]
          rw [hdact]
          have hpres : ∀ u, u < c.values.length →
              ((c.mul w x).1.add act (c.mul w x).2).1.dataAt u
                = c.dataAt u := by
            intro u hu
            rw [dataAt_add_lt _ _ _ u (by rw [length_mul]; omega),
              dataAt_mul_lt c w x u hu]
          rw [zipWith_mul_congr _ c.dataAt ws xs
            (fun u hu => hpres u (hw u (by simp [hu])))
            (fun u hu => hpres u (hx u (by simp [hu])))]
          rw [List.zipWith_cons_cons, List.sum_cons]
          ring

/-! ### Degenerate RNG machinery -/

theorem rngStep_zero : rngStep 0 = 0 := by
  simp [rngStep]

theorem Rng_new_zero : (Rng.new 0).state = 0 := by
  rw [Rng.new]
  exact Function.iterate_fixed rngStep_zero 64

theorem rand_zero : Rng.rand (α := α) { state := 0 } = (0, { state := 0 }) := by
  rw [Rng.rand, rngStep_zero]
  simp

theorem range_zero (min max : α) :
    Rng.range { state := 0 } min max = (min, { state := 0 }) := by
  rw [Rng.range]
  rw [show (Rng.rand (α := α) { state := 0 }) = (0, { state := 0 }) from
    rand_zero]
  simp

theorem dataAt_append_of_values {c c' : Context α} (t : List (Value α))
    (hv : c'.values = c.values ++ t) (j : Nat) (hj : j < c.values.length) :
    c'.dataAt j = c.dataAt j := by
  show (c'.values.getD j dfltV).data = (c.values.getD j dfltV).data
  rw [hv, List.getD_append _ _ _ _ hj]

theorem pushParams_zero : ∀ (k : Nat) (c : Context α),
    (pushParams c { state := 0 } k).2.1 = { state := 0 } ∧
    (∃ t : List (Value α),
      (pushParams c { state := 0 } k).1.values = c.values ++ t) ∧
    (∀ w ∈ (pushParams c { state := 0 } k).2.2,
      (pushParams c { state := 0 } k).1.dataAt w = (-1 : α)) := by
  intro k
  induction k with
  | zero =>
      intro c
      refine ⟨rfl, ⟨[], by simp [pushParams]⟩, ?_⟩
      intro w hw
      simp [pushParams] at hw
  | succ m ih =>
      intro c
      rw [pushParams]
      rw [show (Rng.range (α := α) { state := 0 } (-1) 1)
        = (-1, { state := 0 }) from range_zero (-1) 1]
      obtain ⟨hrng, ⟨t, ht⟩, hws⟩ := ih (c.push (-1)).1
      refine ⟨hrng, ⟨Value.new_const (-1) :: t, ?_⟩, ?_⟩
      · rw [ht]
        rw [show ((c.push (-1 : α)).1.values)
          = c.values ++ [Value.new_const (-1)] from rfl]
        simp
      · intro w hw
        rcases List.mem_cons.mp hw with hw0 | hwmem
        · subst hw0
          have hlt : (c.push (-1)).2 < (c.push (-1)).1.values.length := by
            rw [push_ret, length_push]
            omega
          rw [dataAt_append_of_values t ht _ (by
            rw [push_ret]
            rw [push_ret] at hlt
            exact hlt)]
          rw [push_ret, dataAt_push_self]
        · exact hws w hwmem

/-! ### Claim theorems -/

/-- C1: for every structurally acyclic arena and every issued handle `h`,
`backward(h)` performs exactly the specified sequence: reset every grad to 0,
seed node `h` with grad 1, then visit positions `h` down to 0 in strictly
descending order applying the per-operation local-derivative rules (this is
the refinement `backward = backwardSpec`); and since no node at a position
above `h` is ever visited, every such node's grad is 0 afterwards. -/
theorem claim_C1 {α : Type} [Field α] (F : FOps α) (c : Context α) (h : Nat)
    (hh : h < c.values.length) (hwf : c.WellFormed) :
    c.backward F h = c.backwardSpec F h ∧
    ∀ j, h < j → (c.backward F h).gradAt j = 0 :=
  ⟨backward_eq_backwardSpec F c h, backward_gradAt_high F c h hwf⟩

theorem claim_C1_witness :
    pC.2 < pC.1.values.length ∧ pC.1.WellFormed ∧
    (pC.1.backward qOps pC.2 = pC.1.backwardSpec qOps pC.2 ∧
      ∀ j, pC.2 < j → (pC.1.backward qOps pC.2).gradAt j = 0) :=
  ⟨by decide, by decide, claim_C1 qOps pC.1 pC.2 (by decide) (by decide)⟩

/-- C2: every arena reachable from `Context::new` through `push`, the
`push_val`-free builders (`add`, `sub`, `mul`, `div`, `pow`, `exp`, `tanh`,
`sum`), `clear_grad` and `backward` satisfies the structural acyclicity
invariant: every node carrying an operation has both operand handles
strictly below its own position. -/
theorem claim_C2 {α : Type} [Field α] (F : FOps α) {c : Context α}
    (hr : Reachable F c) : c.WellFormed :=
  WF_of_Reachable hr

theorem claim_C2_witness : (pB.1.mul pA.2 pB.2).1.WellFormed :=
  claim_C2 qOps (Reachable.mul pA.2 pB.2
    (Reachable.push 3 (Reachable.push 2 Reachable.base))
    (by decide) (by decide))

/-- C3: calling `backward(h)` twice consecutively with no intervening
mutation leaves the arena — in particular every node's grad — exactly as a
single call does: each call starts with a full reset. -/
theorem claim_C3 {α : Type} [Field α] (F : FOps α) (c : Context α)
    (h : Nat) :
    (c.backward F h).backward F h = c.backward F h ∧
    ∀ j, ((c.backward F h).backward F h).gradAt j
      = (c.backward F h).gradAt j :=
  ⟨backward_backward F c h, fun j => by rw [backward_backward]⟩

/-- C4: `sum(hs)` pushes a fresh zero leaf (no operation) and then left-folds
`hs` with `add`: it appends `length hs + 1` nodes in total, one derived Add
node per element, returns the handle of the last node appended, and the
returned node's value is the sum of the operand values (so `sum([])` is the
lone zero leaf and `sum([h])` has node `h`'s value). -/
theorem claim_C4 {α : Type} [Field α] (c : Context α) (hs : List Nat)
    (hmem : ∀ h ∈ hs, h < c.values.length) :
    (c.sum hs).1.values.length = c.values.length + hs.length + 1 ∧
    (c.sum hs).2 = c.values.length + hs.length ∧
    (c.sum hs).1.dataAt c.values.length = 0 ∧
    (c.sum hs).1.opAt c.values.length = none ∧
    (∀ i, i < hs.length →
      ∃ a b, (c.sum hs).1.opAt (c.values.length + 1 + i)
        = some (OpType.Add, a, b)) ∧
    (c.sum hs).1.dataAt (c.sum hs).2 = (hs.map c.dataAt).sum := by
  rw [show c.sum hs = Context.sumGo (c.push 0).1 (c.push 0).2 hs from rfl]
  have h0len : (c.push 0).1.values.length = c.values.length + 1 :=
    length_push c 0
  have h0ret : (c.push 0).2 = c.values.length := rfl
  have hacc : (c.push 0).2 < (c.push 0).1.values.length := by
    rw [h0len, h0ret]; omega
  have hmem1 : ∀ h ∈ hs, h < (c.push 0).1.values.length := by
    intro x hx
    rw [h0len]
    exact Nat.lt_succ_of_lt (hmem x hx)
  refine ⟨?_, ?_, ?_, ?_, ?_, ?_⟩
  · rw [sumGo_length, h0len]
    omega
  · rw [sumGo_ret, h0len, h0ret]
    by_cases h : hs = []
    · rw [if_pos h, h]
      rfl
    · rw [if_neg h]
      have : hs.length ≠ 0 := by
        intro hz; exact h (List.eq_nil_of_length_eq_zero hz)
      omega
  · show ((Context.sumGo (c.push 0).1 (c.push 0).2 hs).1.node
        c.values.length).data = 0
    rw [sumGo_node_lt hs _ _ _ (by rw [h0len]; omega)]
    rw [show (c.push 0).1.node c.values.length
      = Value.new_const 0 from node_push_val_self c _]
    rfl
  · show ((Context.sumGo (c.push 0).1 (c.push 0).2 hs).1.node
        c.values.length).op = none
    rw [sumGo_node_lt hs _ _ _ (by rw [h0len]; omega)]
    rw [show (c.push 0).1.node c.values.length
      = Value.new_const 0 from node_push_val_self c _]
    rfl
  · intro i hi
    obtain ⟨a, b, hab⟩ := sumGo_opAt_add hs (c.push 0).1 (c.push 0).2 i hi
    rw [h0len] at hab
    exact ⟨a, b, hab⟩
  · rw [sumGo_dataAt hs _ _ hacc hmem1, h0ret]
    rw [show (c.push 0).1.dataAt c.values.length = 0 from dataAt_push_self c 0]
    rw [List.map_congr_left
      (fun x hx => dataAt_push_lt c 0 x (hmem x hx))]
    ring

theorem claim_C4_witness :
    (∀ h ∈ [0, 1], h < pB.1.values.length) ∧
    ((pB.1.sum [0, 1]).1.values.length = pB.1.values.length + 2 + 1 ∧
     (pB.1.sum [0, 1]).2 = pB.1.values.length + 2 ∧
     (pB.1.sum [0, 1]).1.dataAt pB.1.values.length = 0 ∧
     (pB.1.sum [0, 1]).1.opAt pB.1.values.length = none ∧
     (∀ i, i < ([0, 1] : List Nat).length →
       ∃ a b, (pB.1.sum [0, 1]).1.opAt (pB.1.values.length + 1 + i)
         = some (OpType.Add, a, b)) ∧
     (pB.1.sum [0, 1]).1.dataAt (pB.1.sum [0, 1]).2
       = ([0, 1].map pB.1.dataAt).sum) :=
  ⟨by decide, claim_C4 pB.1 [0, 1] (by decide)⟩

/-- C5: Scenario A — in a fresh arena with `a = push(2.0)`, `b = push(3.0)`,
`c = mul(a, b)`, node `c`'s value is exactly 6, and after `backward(c)` the
grads of `a` and `b` are exactly 3 and 2. -/
theorem claim_C5 :
    pC.1.dataAt pC.2 = 6 ∧ ctxA.gradAt pA.2 = 3 ∧ ctxA.gradAt pB.2 = 2 := by
  norm_num [pA, pB, pC, ctxA, qOps, Context.new, Context.push,
    Context.push_val, Context.mul, Context.apply_op, Context.dataAt,
    Context.gradAt, Context.node, Context.backward, Context.backLoop,
    Context.backStep, Context.resetGrads, Context.setGrad, Context.addGrad,
    Context.subGrad, dfltV, Value.new, Value.new_const]

/-- C6: the forward value of `tanh(a)` is computed through the exponential
identity `(E^(2v) - 1) / (E^(2v) + 1)` — the numerator and denominator each
evaluated via the exponential, then divided — rather than by a direct
hyperbolic-tangent primitive. -/
theorem claim_C6 {α : Type} [Field α] (F : FOps α) (c : Context α) (a : Nat)
    (ha : a < c.values.length) :
    (Context.tanh F c a).1.dataAt (Context.tanh F c a).2
      = (F.powf F.e (2 * c.dataAt a) - 1)
        / (F.powf F.e (2 * c.dataAt a) + 1) :=
  dataAt_tanh_self F c a

theorem claim_C6_witness :
    0 < pA.1.values.length ∧
    (Context.tanh qOps pA.1 0).1.dataAt (Context.tanh qOps pA.1 0).2
      = (qOps.powf qOps.e (2 * pA.1.dataAt 0) - 1)
        / (qOps.powf qOps.e (2 * pA.1.dataAt 0) + 1) :=
  ⟨by decide, claim_C6 qOps pA.1 0 (by decide)⟩

/-- C7: for a neuron with `N` weights and `N` valid inputs, the value of the
handle returned by `forward` is the arena tanh (exponential identity) of the
sum of the products `w_i * x_i` plus the bias, all read at the operands'
current stored values. -/
theorem claim_C7 {α : Type} [Field α] (F : FOps α) (c : Context α)
    (n : Neuron) (xs : List Nat) (hlen : n.weights.length = xs.length)
    (hb : n.bias < c.values.length)
    (hw : ∀ w ∈ n.weights, w < c.values.length)
    (hx : ∀ x ∈ xs, x < c.values.length) :
    (n.forward F c xs).1.dataAt (n.forward F c xs).2
      = tanhVal F
        ((List.zipWith (fun w x => c.dataAt w * c.dataAt x) n.weights
            xs).sum + c.dataAt n.bias) := by
  obtain ⟨hlt, hval⟩ := forwardLoop_spec n.weights xs c n.bias hlen hb hw hx
  rw [show n.forward F c xs
    = (forwardLoop c n.bias n.weights xs).1.tanh F
        (forwardLoop c n.bias n.weights xs).2 from rfl]
  rw [show ((forwardLoop c n.bias n.weights xs).1.tanh F
      (forwardLoop c n.bias n.weights xs).2).2
    = (forwardLoop c n.bias n.weights xs).1.values.length from rfl]
  rw [dataAt_tanh_self, hval, add_comm]

theorem claim_C7_witness :
    (([0] : List Nat).length = ([1] : List Nat).length) ∧
    (1 < pB.1.values.length) ∧
    (∀ w ∈ ([0] : List Nat), w < pB.1.values.length) ∧
    (∀ x ∈ ([1] : List Nat), x < pB.1.values.length) ∧
    (Neuron.forward qOps ⟨[0], 1⟩ pB.1 [1]).1.dataAt
        (Neuron.forward qOps ⟨[0], 1⟩ pB.1 [1]).2
      = tanhVal qOps
        ((List.zipWith (fun w x => pB.1.dataAt w * pB.1.dataAt x) [0]
            [1]).sum + pB.1.dataAt 1) :=
  ⟨by decide, by decide, by decide, by decide,
    claim_C7 qOps pB.1 ⟨[0], 1⟩ [1] (by decide) (by decide) (by decide)
      (by decide)⟩

/-- C8: `backward` mutates only grad fields — it never changes any node's
cached value or operation descriptor, and never adds or removes a node. -/
theorem claim_C8 {α : Type} [Field α] (F : FOps α) (c : Context α)
    (h : Nat) :
    (c.backward F h).values.length = c.values.length ∧
    ∀ j, (c.backward F h).dataAt j = c.dataAt j ∧
      (c.backward F h).opAt j = c.opAt j :=
  ⟨length_eq_of_skel (skeleton_backward F c h),
   fun j => ⟨dataAt_eq_of_skel (skeleton_backward F c h) j,
     opAt_eq_of_skel (skeleton_backward F c h) j⟩⟩

/-- C9: the accessors `value` and `grad` fail (return no value) on every
handle the arena never issued, and return the stored value and grad on every
handle it did issue. -/
theorem claim_C9 {α : Type} [Field α] (c : Context α) (idx : Nat) :
    (c.values.length ≤ idx → c.value idx = none ∧ c.grad idx = none) ∧
    ∀ h : idx < c.values.length,
      c.value idx = some (c.values.get ⟨idx, h⟩).data ∧
      c.grad idx = some (c.values.get ⟨idx, h⟩).grad := by
  constructor
  · intro hge
    constructor <;>
      simp [Context.value, Context.grad, List.get?_eq_getElem?,
        List.getElem?_eq_none hge]
  · intro h
    constructor <;>
      simp [Context.value, Context.grad, List.get?_eq_getElem?,
        List.getElem?_eq_getElem h, List.get_eq_getElem]

theorem claim_C9_witness :
    (pB.1.values.length ≤ 5 → pB.1.value 5 = none ∧ pB.1.grad 5 = none) ∧
    (∀ h : 0 < pB.1.values.length,
      pB.1.value 0 = some (pB.1.values.get ⟨0, h⟩).data ∧
      pB.1.grad 0 = some (pB.1.values.get ⟨0, h⟩).grad) :=
  ⟨(claim_C9 pB.1 5).1, (claim_C9 pB.1 0).2⟩

theorem Rng_new_zero_eq : (Rng.new 0) = ({ state := 0 } : Rng) :=
  congrArg Rng.mk Rng_new_zero

theorem Neuron_new_zero (c : Context α) (k : Nat) :
    Neuron.new c { state := 0 } k
      = ((pushParams (c.push (-1 : α)).1 { state := 0 } k).1,
         (pushParams (c.push (-1 : α)).1 { state := 0 } k).2.1,
         { weights := (pushParams (c.push (-1 : α)).1 { state := 0 } k).2.2,
           bias := (c.push (-1 : α)).2 }) := by
  unfold Neuron.new
  rw [range_zero]

/-- C10: an `Rng` seeded with 0 is degenerate — the xorshift state is 0 and
stays 0 through the warm-up and every later call, so `rand` always returns
exactly 0, `range(min, max)` always returns exactly `min`, and every network
parameter initialised from such an `Rng` via `Neuron::new` equals -1 (the
lower bound of `range(-1, 1)`). -/
theorem claim_C10 {α : Type} [Field α] (k : Nat) (c : Context α) :
    (Rng.new 0).state = 0 ∧
    Rng.rand (α := α) { state := 0 } = (0, { state := 0 }) ∧
    (∀ mn mx : α, Rng.range { state := 0 } mn mx = (mn, { state := 0 })) ∧
    (Neuron.new c (Rng.new 0) k).1.dataAt
        (Neuron.new c (Rng.new 0) k).2.2.bias = (-1 : α) ∧
    ∀ w ∈ (Neuron.new c (Rng.new 0) k).2.2.weights,
      (Neuron.new c (Rng.new 0) k).1.dataAt w = (-1 : α) := by
  obtain ⟨hrng, ⟨t, ht⟩, hws⟩ :=
    pushParams_zero (α := α) k (c.push (-1 : α)).1
  refine ⟨Rng_new_zero, rand_zero, fun mn mx => range_zero mn mx, ?_, ?_⟩
  · rw [Rng_new_zero_eq, Neuron_new_zero]
    show (pushParams (c.push (-1 : α)).1 { state := 0 } k).1.dataAt
      (c.push (-1 : α)).2 = (-1 : α)
    rw [dataAt_append_of_values t ht _ (by
      rw [push_ret, length_push]
      omega)]
    rw [push_ret, dataAt_push_self]
  · rw [Rng_new_zero_eq, Neuron_new_zero]
    intro w hw
    exact hws w hw

theorem claim_C10_witness :
    (Rng.new 0).state = 0 ∧
    Rng.rand (α := ℚ) { state := 0 } = (0, { state := 0 }) ∧
    (∀ mn mx : ℚ, Rng.range { state := 0 } mn mx = (mn, { state := 0 })) ∧
    (Neuron.new (Context.new (α := ℚ)) (Rng.new 0) 2).1.dataAt
        (Neuron.new (Context.new (α := ℚ)) (Rng.new 0) 2).2.2.bias
      = (-1 : ℚ) ∧
    ∀ w ∈ (Neuron.new (Context.new (α := ℚ)) (Rng.new 0) 2).2.2.weights,
      (Neuron.new (Context.new (α := ℚ)) (Rng.new 0) 2).1.dataAt w
        = (-1 : ℚ) :=
  claim_C10 2 Context.new

end AksiNN
